import Mathlib

/-!
Shallow embedding of `X86Intel.trace_test_case` (src/executor.py) — the
measurement-aggregation engine of the revizor executor. The Python function
drives `num_measurements` measurement rounds over a batch of inputs, parses
one CSV row per input per round, and reduces the per-input histories with an
occurrence-threshold outlier filter: traces are OR-merged once a value's
count exceeds `max_outliers`; the first performance-counter slot is
max-merged once a value's count exceeds `2 * max_outliers`.
-/

namespace Executor

/-- The configuration fields of `CONF` read by `trace_test_case`
(src/executor.py lines 82, 116, 135, 139, 150, 154). -/
structure Config where
  num_measurements : Nat
  max_outliers : Nat
  ignore_first_cache_line : Bool
deriving DecidableEq, Repr

/-- An input is an opaque byte-serializable value; `i.tobytes()` (line 85) is
modelled as the byte list itself. -/
abbrev Input := List Nat

/-- One CSV row of `measurement.txt`: the `CACHE_MAP` column and the three
performance-counter columns `pfc1`, `pfc2`, `pfc3` (lines 115, 120-122). -/
structure RawRow where
  cache_map : Nat
  pfc1 : Nat
  pfc2 : Nat
  pfc3 : Nat
deriving DecidableEq, Repr

/-- The parsed output of one measurement round: either the CSV header lacks
the `CACHE_MAP` column (line 111), or a list of data rows. -/
inductive RoundOutput where
  | noTraceColumn : RoundOutput
  | rows (rs : List RawRow) : RoundOutput

/-- The measurement device (kernel module) as seen through its file
interface: `ready` models `os.path.isfile("/proc/x86-executor")` (line 78),
`loadOk` models the `n_inputs` read-back being nonzero (lines 94-96), and
`round k` is the parsed content of `measurement.txt` after the k-th
measurement (lines 102-110). -/
structure Device where
  ready : Bool
  loadOk : Bool
  round : Nat → RoundOutput

/-- One privileged access to the device interface: the three input-loading
accesses (lines 90-94) and the measurement trigger (lines 102-106). -/
inductive DevCall where
  | writeNInputs (n : Nat) : DevCall
  | writeInputs (bytes : List Nat) : DevCall
  | readNInputs : DevCall
  | measure : DevCall
deriving DecidableEq, Repr

/-- The ways a batch aborts. `moduleNotLoaded` and `loadFailure` model
`LOGGER.error` calls (lines 79, 96); `LOGGER` is not under src/ —
Modelled from the spec: section 7 declares both conditions fatal for the
batch. `noOutput` is the exception of line 112; `indexError` is the Python
IndexError raised when a round yields more rows than inputs (line 118) or
when a head of an empty history is taken (lines 126-127). -/
inductive ExecError where
  | moduleNotLoaded : ExecError
  | loadFailure : ExecError
  | noOutput : ExecError
  | indexError : ExecError
deriving DecidableEq, Repr

/-- The three per-input counter histories `pfc_readings[i][0..2]`
(line 99). -/
structure PfcTriple where
  p1 : List Nat
  p2 : List Nat
  p3 : List Nat
deriving DecidableEq, Repr

/-- Line 116-117: when `ignore_first_cache_line` is set, the parsed trace is
AND-masked with 9223372036854775807 (= 2^63 - 1). -/
def maskTrace (cfg : Config) (t : Nat) : Nat :=
  if cfg.ignore_first_cache_line then t &&& 9223372036854775807 else t

/-- One step of the occurrence-threshold filter loops (lines 131-141 and
145-156): bump the value's occurrence count; while the count is at most
`thr` the value is ignored; at exactly `thr + 1` the accumulator is merged
with the value through `op`; afterwards nothing happens. The state is the
accumulator together with the `Counter` of occurrences. -/
def filtStep (thr : Nat) (op : Nat → Nat → Nat) (st : Nat × (Nat → Nat))
    (t : Nat) : Nat × (Nat → Nat) :=
  let c := st.2 t + 1
  let occ : Nat → Nat := fun v => if v = t then c else st.2 v
  if c ≤ thr then (st.1, occ)
  else if c = thr + 1 then (op st.1 t, occ)
  else (st.1, occ)

/-- Instrumented variant of `filtStep` that records, instead of merging, the
values at the moment their count reaches `thr + 1` (proof scaffolding). -/
def evStep (thr : Nat) (st : List Nat × (Nat → Nat)) (t : Nat) :
    List Nat × (Nat → Nat) :=
  let c := st.2 t + 1
  let occ : Nat → Nat := fun v => if v = t then c else st.2 v
  if c ≤ thr then (st.1, occ)
  else if c = thr + 1 then (st.1 ++ [t], occ)
  else (st.1, occ)

/-- The values of `ts` in the order in which they cross the occurrence
threshold `thr` (each recorded once, at its `thr + 1`-st occurrence). -/
def events (thr : Nat) (ts : List Nat) : List Nat :=
  (ts.foldl (evStep thr) ([], fun _ => 0)).1

/-- Lines 130-141: the outlier-filtering OR-merge of one input's trace
history — `merged |= trace` exactly when the value's occurrence count
reaches `max_outliers + 1`. -/
def mergeTraces (mo : Nat) (ts : List Nat) : Nat :=
  (ts.foldl (filtStep mo (fun a b => a ||| b)) (0, fun _ => 0)).1

/-- Lines 143-156: the outlier filter of one input's first counter slot —
threshold `max_outliers * 2`, merge operator `max`. -/
def filterPfc (mo : Nat) (rs : List Nat) : Nat :=
  (rs.foldl (filtStep (mo * 2) (fun a b => max a b)) (0, fun _ => 0)).1

/-- Line 130-141 over the whole batch: `merged_traces[i]` is the OR-merge of
input i's trace history. -/
def mergePhase (mo : Nat) (traces : List (List Nat)) : List Nat :=
  traces.map (mergeTraces mo)

/-- Lines 144-156 over the whole batch: `filtered_pfc_readings[i]` starts as
`[0, 0, 0]` and only its first slot is ever updated, from input i's first
counter history. -/
def filterPhase (mo : Nat) (pfc : List PfcTriple) : List (List Nat) :=
  pfc.map fun p => [filterPfc mo p.p1, 0, 0]

/-- Line 118 across one round: `traces[i].append(trace)` for each row index
i. Rows beyond the input count are handled by the caller; inputs beyond the
row count keep their history unchanged. -/
def appendTraces : List (List Nat) → List Nat → List (List Nat)
  | ts, [] => ts
  | [], _ :: _ => []
  | t :: ts, v :: vs => (t ++ [v]) :: appendTraces ts vs

/-- Lines 120-122 across one round: append the three counter columns of row
i to `pfc_readings[i]`. -/
def appendPfc : List PfcTriple → List RawRow → List PfcTriple
  | ps, [] => ps
  | [], _ :: _ => []
  | p :: ps, r :: rs =>
      ⟨p.p1 ++ [r.pfc1], p.p2 ++ [r.pfc2], p.p3 ++ [r.pfc3]⟩ :: appendPfc ps rs

/-- Lines 114-122: ingest one round's rows into the per-input histories.
When the device yields more rows than inputs, `traces[i].append` raises
IndexError at row index `len(traces)`; otherwise each row i is appended to
input i's histories (the trace masked per `ignore_first_cache_line`). -/
def appendRound (cfg : Config) (st : List (List Nat) × List PfcTriple)
    (rs : List RawRow) : Except ExecError (List (List Nat) × List PfcTriple) :=
  if st.1.length < rs.length then .error .indexError
  else .ok (appendTraces st.1 (rs.map fun r => maskTrace cfg r.cache_map),
            appendPfc st.2 rs)

/-- Lines 100-122: the measurement loop. Each iteration triggers one
measurement (`measure` in the call log), aborts with `noOutput` when the
round's output lacks the trace column, and otherwise ingests the rows. `k`
is the current round index, the last argument the number of rounds left. -/
def runRoundsAux (cfg : Config) (dev : Device) :
    List (List Nat) × List PfcTriple → Nat → Nat →
    List DevCall × Except ExecError (List (List Nat) × List PfcTriple)
  | st, _, 0 => ([], .ok st)
  | st, k, n + 1 =>
    match dev.round k with
    | .noTraceColumn => ([.measure], .error .noOutput)
    | .rows rs =>
      match appendRound cfg st rs with
      | .error e => ([.measure], .error e)
      | .ok st' =>
        let rest := runRoundsAux cfg dev st' (k + 1) n
        (.measure :: rest.1, rest.2)

/-- Line 127: `t[0]` for each trace history — IndexError on an empty
history. -/
def traceHeads : List (List Nat) → Except ExecError (List Nat)
  | [] => .ok []
  | t :: ts =>
    match t with
    | [] => .error .indexError
    | v :: _ =>
      match traceHeads ts with
      | .error e => .error e
      | .ok r => .ok (v :: r)

/-- Line 126: `[r[0][0], r[1][0], r[2][0]] for r in pfc_readings` —
IndexError on an empty counter history. -/
def pfcHeads : List PfcTriple → Except ExecError (List (List Nat))
  | [] => .ok []
  | p :: ps =>
    match p.p1, p.p2, p.p3 with
    | a :: _, b :: _, c :: _ =>
      match pfcHeads ps with
      | .error e => .error e
      | .ok r => .ok ([a, b, c] :: r)
    | _, _, _ => .error .indexError

/-- Lines 124-127: the single-round fast path — forward the round's raw
counter triples to the coverage hook (when a coverage object is set) and
return the raw per-round traces. -/
def singleRoundResult (hasCoverage : Bool) (tr : List (List Nat))
    (pfc : List PfcTriple) :
    Except ExecError (List Nat × Option (List (List Nat))) :=
  match (if hasCoverage then (pfcHeads pfc).map some else .ok none) with
  | .error e => .error e
  | .ok hook =>
    match traceHeads tr with
    | .error e => .error e
    | .ok ret => .ok (ret, hook)

/-- Lines 81-82: a `num_measurements` argument of 0 is a sentinel replaced
by the configured `CONF.num_measurements`. -/
def resolveNm (cfg : Config) (n : Nat) : Nat :=
  if n = 0 then cfg.num_measurements else n

/-- Lines 98-99: the empty per-input histories, one slot per input. -/
def initHistories (inputs : List Input) :
    List (List Nat) × List PfcTriple :=
  (inputs.map fun _ => [], inputs.map fun _ => ⟨[], [], []⟩)

/-- Lines 71-161: `X86Intel.trace_test_case`. The result is the log of
device calls together with either an abort or the returned traces paired
with the argument forwarded to the coverage hook (`none` when the hook is
not invoked). -/
def trace_test_case (cfg : Config) (hasCoverage : Bool) (dev : Device)
    (inputs : List Input) (num_measurements : Nat) :
    List DevCall × Except ExecError (List Nat × Option (List (List Nat))) :=
  if inputs = [] then ([], .ok ([], none))
  else if dev.ready = false then ([], .error .moduleNotLoaded)
  else
    let nm := resolveNm cfg num_measurements
    let loadLog : List DevCall :=
      [.writeNInputs inputs.length, .writeInputs inputs.flatten, .readNInputs]
    if dev.loadOk = false then (loadLog, .error .loadFailure)
    else
      match runRoundsAux cfg dev (initHistories inputs) 0 nm with
      | (mlog, .error e) => (loadLog ++ mlog, .error e)
      | (mlog, .ok (traces, pfc_readings)) =>
        if nm = 1 then
          (loadLog ++ mlog, singleRoundResult hasCoverage traces pfc_readings)
        else
          (loadLog ++ mlog,
           .ok (mergePhase cfg.max_outliers traces,
                if hasCoverage then some (filterPhase cfg.max_outliers pfc_readings)
                else none))

/-! ### The occurrence-threshold filter, characterized -/

theorem evStep_skip (thr : Nat) (st : List Nat × (Nat → Nat)) (t : Nat)
    (h : st.2 t + 1 ≤ thr) :
    evStep thr st t = (st.1, fun v => if v = t then st.2 t + 1 else st.2 v) := by
  simp only [evStep]
  rw [if_pos h]

theorem evStep_merge (thr : Nat) (st : List Nat × (Nat → Nat)) (t : Nat)
    (h : st.2 t = thr) :
    evStep thr st t
      = (st.1 ++ [t], fun v => if v = t then st.2 t + 1 else st.2 v) := by
  simp only [evStep]
  rw [if_neg (by omega), if_pos (by omega)]

theorem evStep_post (thr : Nat) (st : List Nat × (Nat → Nat)) (t : Nat)
    (h : thr < st.2 t) :
    evStep thr st t = (st.1, fun v => if v = t then st.2 t + 1 else st.2 v) := by
  simp only [evStep]
  rw [if_neg (by omega), if_neg (by omega)]

theorem filtStep_skip (thr : Nat) (op : Nat → Nat → Nat)
    (st : Nat × (Nat → Nat)) (t : Nat) (h : st.2 t + 1 ≤ thr) :
    filtStep thr op st t
      = (st.1, fun v => if v = t then st.2 t + 1 else st.2 v) := by
  simp only [filtStep]
  rw [if_pos h]

theorem filtStep_merge (thr : Nat) (op : Nat → Nat → Nat)
    (st : Nat × (Nat → Nat)) (t : Nat) (h : st.2 t = thr) :
    filtStep thr op st t
      = (op st.1 t, fun v => if v = t then st.2 t + 1 else st.2 v) := by
  simp only [filtStep]
  rw [if_neg (by omega), if_pos (by omega)]

theorem filtStep_post (thr : Nat) (op : Nat → Nat → Nat)
    (st : Nat × (Nat → Nat)) (t : Nat) (h : thr < st.2 t) :
    filtStep thr op st t
      = (st.1, fun v => if v = t then st.2 t + 1 else st.2 v) := by
  simp only [filtStep]
  rw [if_neg (by omega), if_neg (by omega)]

theorem foldl_evStep_snd (thr : Nat) (ts : List Nat) :
    ∀ (l : List Nat) (c0 : Nat → Nat),
      (ts.foldl (evStep thr) (l, c0)).2 = fun v => c0 v + ts.count v := by
  induction ts with
  | nil => intro l c0; funext v; simp
  | cons t rest ih =>
    intro l c0
    have hocc : ∀ v, c0 v + (t :: rest).count v
        = (if v = t then c0 t + 1 else c0 v) + rest.count v := by
      intro v
      by_cases hv : v = t
      · simp only [hv, if_pos, List.count_cons]
        simp
        omega
      · simp [hv, List.count_cons]
    rw [List.foldl_cons]
    rcases Nat.lt_trichotomy (c0 t) thr with h | h | h
    · rw [evStep_skip thr (l, c0) t (by simpa using h), ih]
      funext v; exact (hocc v).symm
    · rw [evStep_merge thr (l, c0) t h, ih]
      funext v; exact (hocc v).symm
    · rw [evStep_post thr (l, c0) t h, ih]
      funext v; exact (hocc v).symm

theorem foldl_evStep_fst (thr : Nat) (ts : List Nat) :
    ∀ (l : List Nat) (c0 : Nat → Nat),
      (ts.foldl (evStep thr) (l, c0)).1
        = l ++ (ts.foldl (evStep thr) ([], c0)).1 := by
  induction ts with
  | nil => intro l c0; simp
  | cons t rest ih =>
    intro l c0
    rw [List.foldl_cons, List.foldl_cons]
    rcases Nat.lt_trichotomy (c0 t) thr with h | h | h
    · rw [evStep_skip thr (l, c0) t (by simpa using h),
          evStep_skip thr ([], c0) t (by simpa using h), ih]
    · rw [evStep_merge thr (l, c0) t h, evStep_merge thr ([], c0) t h,
          ih (l ++ [t]) _, ih ([] ++ [t]) _, List.nil_append,
          List.append_assoc]
    · rw [evStep_post thr (l, c0) t h, evStep_post thr ([], c0) t h, ih]

theorem foldl_filtStep_fst (thr : Nat) (op : Nat → Nat → Nat) (ts : List Nat) :
    ∀ (z : Nat) (c0 : Nat → Nat),
      (ts.foldl (filtStep thr op) (z, c0)).1
        = ((ts.foldl (evStep thr) ([], c0)).1).foldl op z := by
  induction ts with
  | nil => intro z c0; simp
  | cons t rest ih =>
    intro z c0
    rw [List.foldl_cons, List.foldl_cons]
    rcases Nat.lt_trichotomy (c0 t) thr with h | h | h
    · rw [filtStep_skip thr op (z, c0) t (by simpa using h),
          evStep_skip thr ([], c0) t (by simpa using h), ih]
    · rw [filtStep_merge thr op (z, c0) t h, evStep_merge thr ([], c0) t h,
          ih (op z t) _, foldl_evStep_fst thr rest ([] ++ [t]) _,
          List.nil_append, List.foldl_append, List.foldl_cons, List.foldl_nil]
    · rw [filtStep_post thr op (z, c0) t h, evStep_post thr ([], c0) t h, ih]

theorem events_count (thr : Nat) (ts : List Nat) :
    ∀ v, (events thr ts).count v = if thr < ts.count v then 1 else 0 := by
  induction ts using List.reverseRecOn with
  | nil => intro v; simp [events]
  | append_singleton l t ih =>
    intro v
    have hP2 : (l.foldl (evStep thr) ([], fun _ => 0)).2 t = l.count t := by
      rw [foldl_evStep_snd]
      simp
    have hfst : (l.foldl (evStep thr) ([], fun _ => 0)).1 = events thr l := rfl
    have hstep : events thr (l ++ [t])
        = (evStep thr (l.foldl (evStep thr) ([], fun _ => 0)) t).1 := by
      simp [events, List.foldl_append]
    rcases Nat.lt_trichotomy (l.count t) thr with h | h | h
    · rw [hstep, evStep_skip thr _ t (by omega), hfst, ih v]
      by_cases hv : v = t
      · subst hv
        rw [List.count_append, List.count_singleton_self,
            if_neg (by omega : ¬ thr < l.count v),
            if_neg (by omega : ¬ thr < l.count v + 1)]
      · rw [List.count_append, List.count_singleton]
        simp [Ne.symm hv]
    · rw [hstep, evStep_merge thr _ t (by omega), hfst]
      by_cases hv : v = t
      · subst hv
        rw [List.count_append, List.count_append, ih v]
        simp [List.count_singleton, h]
      · rw [List.count_append, List.count_append, ih v]
        simp [List.count_singleton, Ne.symm hv]
    · rw [hstep, evStep_post thr _ t (by omega), hfst, ih v]
      by_cases hv : v = t
      · subst hv
        rw [List.count_append, List.count_singleton_self,
            if_pos (by omega : thr < l.count v),
            if_pos (by omega : thr < l.count v + 1)]
      · rw [List.count_append, List.count_singleton]
        simp [Ne.symm hv]

theorem events_mem (thr : Nat) (ts : List Nat) (v : Nat) :
    v ∈ events thr ts ↔ thr < ts.count v := by
  rw [← List.count_pos_iff, events_count]
  by_cases h : thr < ts.count v <;> simp [h]

theorem mergeTraces_eq_foldl_events (mo : Nat) (ts : List Nat) :
    mergeTraces mo ts = (events mo ts).foldl (fun a b => a ||| b) 0 :=
  foldl_filtStep_fst mo (fun a b => a ||| b) ts 0 (fun _ => 0)

theorem filterPfc_eq_foldl_events (mo : Nat) (rs : List Nat) :
    filterPfc mo rs = (events (mo * 2) rs).foldl (fun a b => max a b) 0 :=
  foldl_filtStep_fst (mo * 2) (fun a b => max a b) rs 0 (fun _ => 0)

theorem events_perm_dedup_filter (thr : Nat) (ts : List Nat) :
    (events thr ts).Perm (ts.dedup.filter fun v => thr < ts.count v) := by
  rw [List.perm_iff_count]
  intro a
  rw [events_count]
  have hnd : (ts.dedup.filter fun v => thr < ts.count v).Nodup :=
    (List.nodup_dedup ts).filter _
  by_cases h : thr < ts.count a
  · have hmem : a ∈ ts.dedup.filter fun v => thr < ts.count v := by
      rw [List.mem_filter, List.mem_dedup]
      exact ⟨List.count_pos_iff.mp (by omega), by simpa using h⟩
    rw [if_pos h, List.count_eq_one_of_mem hnd hmem]
  · have hmem : a ∉ ts.dedup.filter fun v => thr < ts.count v := by
      rw [List.mem_filter]
      intro hc
      exact h (by simpa using hc.2)
    rw [if_neg h, List.count_eq_zero_of_not_mem hmem]

theorem foldl_lor_perm {l₁ l₂ : List Nat} (h : l₁.Perm l₂) (z : Nat) :
    l₁.foldl (fun a b => a ||| b) z = l₂.foldl (fun a b => a ||| b) z :=
  h.foldl_eq'
    (fun x _ y _ w => by
      rw [Nat.or_assoc, Nat.or_comm x y, ← Nat.or_assoc]) z

theorem mergeTraces_all_noise (mo : Nat) (ts : List Nat)
    (h : ∀ v ∈ ts, ts.count v ≤ mo) : mergeTraces mo ts = 0 := by
  have hnil : events mo ts = [] := by
    rw [List.eq_nil_iff_forall_not_mem]
    intro v hv
    have hlt : mo < ts.count v := (events_mem mo ts v).mp hv
    have hmem : v ∈ ts := List.count_pos_iff.mp (by omega)
    exact absurd (h v hmem) (by omega)
  rw [mergeTraces_eq_foldl_events, hnil]
  rfl

theorem appendTraces_nil_left (vs : List Nat) : appendTraces [] vs = [] := by
  cases vs <;> rfl

theorem appendPfc_nil_left (rs : List RawRow) : appendPfc [] rs = [] := by
  cases rs <;> rfl

/-! ### The per-round ingestion and the measurement loop -/

theorem appendTraces_length (ts : List (List Nat)) (vs : List Nat)
    (h : vs.length ≤ ts.length) :
    (appendTraces ts vs).length = ts.length := by
  induction ts generalizing vs with
  | nil =>
    cases vs with
    | nil => rfl
    | cons v vs => simp at h
  | cons t ts ih =>
    cases vs with
    | nil => rfl
    | cons v vs =>
      simp only [appendTraces, List.length_cons]
      rw [ih vs (by simpa using h)]

theorem appendPfc_length (ps : List PfcTriple) (rs : List RawRow)
    (h : rs.length ≤ ps.length) :
    (appendPfc ps rs).length = ps.length := by
  induction ps generalizing rs with
  | nil =>
    cases rs with
    | nil => rfl
    | cons r rs => simp at h
  | cons p ps ih =>
    cases rs with
    | nil => rfl
    | cons r rs =>
      simp only [appendPfc, List.length_cons]
      rw [ih rs (by simpa using h)]

theorem appendTraces_getElem_lt (ts : List (List Nat)) (vs : List Nat) :
    ∀ (i v : Nat) (t : List Nat), vs[i]? = some v → ts[i]? = some t →
      (appendTraces ts vs)[i]? = some (t ++ [v]) := by
  induction ts generalizing vs with
  | nil => intro i v t _ ht; simp at ht
  | cons t0 ts ih =>
    intro i v t hv ht
    cases vs with
    | nil => simp at hv
    | cons v0 vs =>
      cases i with
      | zero =>
        simp only [List.getElem?_cons_zero, Option.some.injEq] at hv ht
        simp [appendTraces, hv, ht]
      | succ i =>
        simp only [List.getElem?_cons_succ] at hv ht
        simpa [appendTraces] using ih vs i v t hv ht

theorem appendTraces_getElem_ge (ts : List (List Nat)) (vs : List Nat) :
    ∀ i, vs.length ≤ i → (appendTraces ts vs)[i]? = ts[i]? := by
  induction ts generalizing vs with
  | nil =>
    intro i _
    rw [appendTraces_nil_left]
  | cons t0 ts ih =>
    intro i hi
    cases vs with
    | nil => rfl
    | cons v0 vs =>
      cases i with
      | zero => simp at hi
      | succ i =>
        simp only [appendTraces, List.getElem?_cons_succ]
        exact ih vs i (by simpa using hi)

theorem appendTraces_mem (ts : List (List Nat)) (vs : List Nat) :
    ∀ x ∈ appendTraces ts vs, ∃ y ∈ ts, x.length ≤ y.length + 1 := by
  induction ts generalizing vs with
  | nil =>
    intro x hx
    rw [appendTraces_nil_left] at hx
    simp at hx
  | cons t ts ih =>
    intro x hx
    cases vs with
    | nil =>
      exact ⟨x, hx, by omega⟩
    | cons v vs =>
      simp only [appendTraces, List.mem_cons] at hx
      rcases hx with rfl | hx
      · exact ⟨t, List.mem_cons_self t ts, by simp⟩
      · obtain ⟨y, hy, hl⟩ := ih vs x hx
        exact ⟨y, List.mem_cons_of_mem t hy, hl⟩

theorem appendPfc_mem (ps : List PfcTriple) (rs : List RawRow) :
    ∀ x ∈ appendPfc ps rs, ∃ y ∈ ps,
      x.p1.length ≤ y.p1.length + 1 ∧ x.p2.length ≤ y.p2.length + 1
      ∧ x.p3.length ≤ y.p3.length + 1 := by
  induction ps generalizing rs with
  | nil =>
    intro x hx
    rw [appendPfc_nil_left] at hx
    simp at hx
  | cons p ps ih =>
    intro x hx
    cases rs with
    | nil =>
      exact ⟨x, hx, by omega, by omega, by omega⟩
    | cons r rs =>
      simp only [appendPfc, List.mem_cons] at hx
      rcases hx with rfl | hx
      · exact ⟨p, List.mem_cons_self p ps, by simp⟩
      · obtain ⟨y, hy, hl⟩ := ih rs x hx
        exact ⟨y, List.mem_cons_of_mem p hy, hl⟩

theorem runRoundsAux_ok (cfg : Config) (dev : Device) :
    ∀ (n : Nat) (st : List (List Nat) × List PfcTriple) (k : Nat)
      (mlog : List DevCall) (tr : List (List Nat)) (pf : List PfcTriple),
      st.2.length = st.1.length →
      runRoundsAux cfg dev st k n = (mlog, .ok (tr, pf)) →
      tr.length = st.1.length ∧ pf.length = st.2.length
      ∧ (∀ x ∈ tr, ∃ y ∈ st.1, x.length ≤ y.length + n)
      ∧ (∀ x ∈ pf, ∃ y ∈ st.2,
          x.p1.length ≤ y.p1.length + n ∧ x.p2.length ≤ y.p2.length + n
          ∧ x.p3.length ≤ y.p3.length + n) := by
  intro n
  induction n with
  | zero =>
    intro st k mlog tr pf _ h
    simp only [runRoundsAux] at h
    have h2 : (Except.ok st : Except ExecError (List (List Nat) × List PfcTriple))
        = .ok (tr, pf) := congrArg Prod.snd h
    have hst : st = (tr, pf) := by injection h2
    rw [hst]
    exact ⟨rfl, rfl, fun x hx => ⟨x, hx, by omega⟩,
           fun x hx => ⟨x, hx, by omega, by omega, by omega⟩⟩
  | succ n ih =>
    intro st k mlog tr pf haligned h
    cases hr : dev.round k with
    | noTraceColumn =>
      simp only [runRoundsAux, hr] at h
      simp at h
    | rows rs =>
      cases ha : appendRound cfg st rs with
      | error e =>
        simp only [runRoundsAux, hr, ha] at h
        simp at h
      | ok st' =>
        simp only [runRoundsAux, hr, ha] at h
        have hres : (runRoundsAux cfg dev st' (k + 1) n).2 = .ok (tr, pf) := by
          have h2 := congrArg Prod.snd h
          simpa using h2
        have hle : rs.length ≤ st.1.length := by
          by_contra hc
          simp only [appendRound, if_pos (by omega : st.1.length < rs.length)]
            at ha
          simp at ha
        have ha' : st' = (appendTraces st.1 (rs.map fun r => maskTrace cfg r.cache_map),
                          appendPfc st.2 rs) := by
          simp only [appendRound, if_neg (by omega : ¬ st.1.length < rs.length)]
            at ha
          injection ha with hab
          exact hab.symm
        have hta : (appendTraces st.1 (rs.map fun r => maskTrace cfg r.cache_map)).length
            = st.1.length :=
          appendTraces_length st.1 _ (by simpa using hle)
        have hpa : (appendPfc st.2 rs).length = st.2.length :=
          appendPfc_length st.2 rs (by omega)
        obtain ⟨hlen1, hlen2, hb1, hb2⟩ :=
          ih st' (k + 1) (runRoundsAux cfg dev st' (k + 1) n).1 tr pf
            (by rw [ha']; simpa [hta, hpa] using haligned)
            (by rw [← hres])
        refine ⟨?_, ?_, ?_, ?_⟩
        · rw [hlen1, ha']
          exact hta
        · rw [hlen2, ha']
          exact hpa
        · intro x hx
          obtain ⟨y, hy, hxy⟩ := hb1 x hx
          rw [ha'] at hy
          obtain ⟨z, hz, hyz⟩ := appendTraces_mem st.1 _ y hy
          exact ⟨z, hz, by omega⟩
        · intro x hx
          obtain ⟨y, hy, hxy1, hxy2, hxy3⟩ := hb2 x hx
          rw [ha'] at hy
          obtain ⟨z, hz, hyz1, hyz2, hyz3⟩ := appendPfc_mem st.2 rs y hy
          exact ⟨z, hz, by omega, by omega, by omega⟩

theorem runRoundsAux_noOutput (cfg : Config) (dev : Device) :
    ∀ (m : Nat) (st : List (List Nat) × List PfcTriple) (k n : Nat),
      m < n → dev.round (k + m) = .noTraceColumn →
      (∀ j < m, ∃ rs, dev.round (k + j) = .rows rs ∧ rs.length ≤ st.1.length) →
      (runRoundsAux cfg dev st k n).2 = .error .noOutput := by
  intro m
  induction m with
  | zero =>
    intro st k n hn hbad _
    cases n with
    | zero => omega
    | succ n =>
      simp only [runRoundsAux]
      rw [show k + 0 = k from rfl] at hbad
      rw [hbad]
  | succ m ih =>
    intro st k n hn hbad hgood
    cases n with
    | zero => omega
    | succ n =>
      obtain ⟨rs, hrs, hlen⟩ := hgood 0 (by omega)
      rw [show k + 0 = k from rfl] at hrs
      simp only [runRoundsAux, hrs]
      have hok : appendRound cfg st rs
          = .ok (appendTraces st.1 (rs.map fun r => maskTrace cfg r.cache_map),
                 appendPfc st.2 rs) := by
        simp only [appendRound, if_neg (by omega : ¬ st.1.length < rs.length)]
      rw [hok]
      refine ih _ (k + 1) n (by omega) (by rw [show k + 1 + m = k + (m + 1) by omega]; exact hbad) ?_
      intro j hj
      obtain ⟨rs', hrs', hlen'⟩ := hgood (j + 1) (by omega)
      refine ⟨rs', by rw [show k + 1 + j = k + (j + 1) by omega]; exact hrs', ?_⟩
      rw [show (appendTraces st.1 (rs.map fun r => maskTrace cfg r.cache_map),
            appendPfc st.2 rs).1
          = appendTraces st.1 (rs.map fun r => maskTrace cfg r.cache_map) from rfl,
          appendTraces_length st.1 _ (by simpa using hlen)]
      exact hlen'

theorem traceHeads_ok_length (ts : List (List Nat)) (r : List Nat)
    (h : traceHeads ts = .ok r) : r.length = ts.length := by
  induction ts generalizing r with
  | nil =>
    simp only [traceHeads] at h
    injection h with h
    rw [← h]
    rfl
  | cons t ts ih =>
    cases t with
    | nil => simp only [traceHeads] at h; cases h
    | cons v t =>
      simp only [traceHeads] at h
      cases hrec : traceHeads ts with
      | error e => rw [hrec] at h; cases h
      | ok r' =>
        rw [hrec] at h
        injection h with h
        rw [← h]
        simp [ih r' hrec]

theorem pfcHeads_ok_length (ps : List PfcTriple) (r : List (List Nat))
    (h : pfcHeads ps = .ok r) : r.length = ps.length := by
  induction ps generalizing r with
  | nil =>
    simp only [pfcHeads] at h
    injection h with h
    rw [← h]
    rfl
  | cons p ps ih =>
    cases hp1 : p.p1 with
    | nil => simp only [pfcHeads, hp1] at h; cases h
    | cons a as =>
      cases hp2 : p.p2 with
      | nil => simp only [pfcHeads, hp1, hp2] at h; cases h
      | cons b bs =>
        cases hp3 : p.p3 with
        | nil => simp only [pfcHeads, hp1, hp2, hp3] at h; cases h
        | cons c cs =>
          simp only [pfcHeads, hp1, hp2, hp3] at h
          cases hrec : pfcHeads ps with
          | error e => rw [hrec] at h; cases h
          | ok r' =>
            rw [hrec] at h
            injection h with h
            rw [← h]
            simp [ih r' hrec]

theorem singleRoundResult_ok (cov : Bool) (tr : List (List Nat))
    (pfc : List PfcTriple) (r : List Nat) (hk : Option (List (List Nat)))
    (h : singleRoundResult cov tr pfc = .ok (r, hk)) :
    r.length = tr.length ∧ ∀ fc, hk = some fc → fc.length = pfc.length := by
  unfold singleRoundResult at h
  cases cov with
  | false =>
    simp only [Bool.false_eq_true, if_false] at h
    cases hth : traceHeads tr with
    | error e => rw [hth] at h; cases h
    | ok ret =>
      rw [hth] at h
      injection h with h
      obtain ⟨h1, h2⟩ : ret = r ∧ (none : Option (List (List Nat))) = hk := by
        constructor
        · exact congrArg Prod.fst h
        · exact congrArg Prod.snd h
      refine ⟨h1 ▸ traceHeads_ok_length tr ret hth, ?_⟩
      intro fc hfc
      rw [← h2] at hfc
      cases hfc
  | true =>
    simp only [if_true] at h
    cases hph : pfcHeads pfc with
    | error e => rw [hph] at h; simp only [Except.map] at h; cases h
    | ok l =>
      rw [hph] at h
      simp only [Except.map] at h
      cases hth : traceHeads tr with
      | error e => rw [hth] at h; cases h
      | ok ret =>
        rw [hth] at h
        injection h with h
        obtain ⟨h1, h2⟩ : ret = r ∧ (some l : Option (List (List Nat))) = hk := by
          constructor
          · exact congrArg Prod.fst h
          · exact congrArg Prod.snd h
        refine ⟨h1 ▸ traceHeads_ok_length tr ret hth, ?_⟩
        intro fc hfc
        rw [← h2] at hfc
        injection hfc with hfc
        rw [← hfc]
        exact pfcHeads_ok_length pfc l hph

theorem trace_test_case_run (cfg : Config) (cov : Bool) (dev : Device)
    (inputs : List Input) (nm : Nat)
    (hne : inputs ≠ []) (hready : dev.ready = true) (hload : dev.loadOk = true) :
    trace_test_case cfg cov dev inputs nm
      = ([DevCall.writeNInputs inputs.length, .writeInputs inputs.flatten,
          .readNInputs]
           ++ (runRoundsAux cfg dev (initHistories inputs) 0 (resolveNm cfg nm)).1,
         match (runRoundsAux cfg dev (initHistories inputs) 0 (resolveNm cfg nm)).2
         with
         | .error e => .error e
         | .ok (tr, pf) =>
           if resolveNm cfg nm = 1 then singleRoundResult cov tr pf
           else .ok (mergePhase cfg.max_outliers tr,
                     if cov then some (filterPhase cfg.max_outliers pf)
                     else none)) := by
  unfold trace_test_case
  rw [if_neg hne, if_neg (by simp [hready]), if_neg (by simp [hload])]
  rcases hrr : runRoundsAux cfg dev (initHistories inputs) 0 (resolveNm cfg nm)
    with ⟨mlog, res⟩
  cases res with
  | error e => rfl
  | ok p =>
    cases p with
    | mk tr pf =>
      by_cases h1 : resolveNm cfg nm = 1
      · simp [h1]
      · simp [h1]

theorem appendTraces_nils : ∀ (l : List Input) (vs : List Nat),
    vs.length = l.length →
    appendTraces (l.map fun _ => []) vs = vs.map fun v => [v] := by
  intro l
  induction l with
  | nil =>
    intro vs h
    rw [List.length_nil, List.length_eq_zero] at h
    rw [h]
    rfl
  | cons x l ih =>
    intro vs h
    cases vs with
    | nil => simp at h
    | cons v vs =>
      simp only [List.map_cons, appendTraces, List.nil_append]
      rw [ih vs (by simpa using h)]

theorem appendPfc_nils : ∀ (l : List Input) (rs : List RawRow),
    rs.length = l.length →
    appendPfc (l.map fun _ => ⟨[], [], []⟩) rs
      = rs.map fun r => ⟨[r.pfc1], [r.pfc2], [r.pfc3]⟩ := by
  intro l
  induction l with
  | nil =>
    intro rs h
    rw [List.length_nil, List.length_eq_zero] at h
    rw [h]
    rfl
  | cons x l ih =>
    intro rs h
    cases rs with
    | nil => simp at h
    | cons r rs =>
      simp only [List.map_cons, appendPfc, List.nil_append]
      rw [ih rs (by simpa using h)]

theorem traceHeads_singletons (vs : List Nat) :
    traceHeads (vs.map fun v => [v]) = .ok vs := by
  induction vs with
  | nil => rfl
  | cons v vs ih => simp only [List.map_cons, traceHeads, ih]

theorem pfcHeads_singles (rs : List RawRow) :
    pfcHeads (rs.map fun r => ⟨[r.pfc1], [r.pfc2], [r.pfc3]⟩)
      = .ok (rs.map fun r => [r.pfc1, r.pfc2, r.pfc3]) := by
  induction rs with
  | nil => rfl
  | cons r rs ih => simp only [List.map_cons, pfcHeads, ih]

/-! ### The claims -/

/-- C1: for an input of a multi-round batch, a distinct trace value that
occurs exactly k times across that input's history is recorded by the merge
loop (lines 130-141) iff k > max_outliers, and exactly once; the
CombinedTrace is the OR-fold of the recorded values; and the value is
recorded in a prefix of the history exactly when that prefix already holds
more than max_outliers occurrences — i.e. at the occurrence that makes its
count equal max_outliers + 1, with later repetitions changing nothing. -/
theorem claim_C1 (mo k v n : Nat) (ts : List Nat) (hk : ts.count v = k) :
    ((events mo ts).count v = if mo < k then 1 else 0)
    ∧ mergeTraces mo ts = (events mo ts).foldl (fun a b => a ||| b) 0
    ∧ (v ∈ events mo (ts.take n) ↔ mo < (ts.take n).count v) := by
  refine ⟨?_, mergeTraces_eq_foldl_events mo ts, events_mem mo (ts.take n) v⟩
  rw [events_count, hk]

theorem claim_C1_witness :
    ([7, 7, 7].count 7 = 3)
    ∧ ((events 1 [7, 7, 7]).count 7 = if 1 < 3 then 1 else 0)
    ∧ mergeTraces 1 [7, 7, 7] = (events 1 [7, 7, 7]).foldl (fun a b => a ||| b) 0
    ∧ (7 ∈ events 1 ([7, 7, 7].take 2) ↔ 1 < ([7, 7, 7].take 2).count 7) :=
  ⟨by decide, (claim_C1 1 3 7 2 [7, 7, 7] (by decide)).1,
   (claim_C1 1 3 7 2 [7, 7, 7] (by decide)).2.1,
   (claim_C1 1 3 7 2 [7, 7, 7] (by decide)).2.2⟩

/-- C2 counterexample: the mask constant 9223372036854775807 is 2^63 - 1,
which keeps bit 0 — with `ignore_first_cache_line` enabled, a per-round
trace of 1 keeps bit 0 set and is returned as-is by a single-round batch,
refuting that bit 0 is forced to 0 before counting or merging. -/
theorem claim_C2_counterexample :
    maskTrace ⟨1, 0, true⟩ 1 = 1
    ∧ (maskTrace ⟨1, 0, true⟩ 1).testBit 0 = true
    ∧ (trace_test_case ⟨1, 0, true⟩ false
         ⟨true, true, fun _ => .rows [⟨1, 0, 0, 0⟩]⟩ [[0]] 1).2
        = .ok ([1], none) :=
  ⟨rfl, rfl, rfl⟩

/-- C2 amended: when `ignore_first_cache_line` is enabled, bit 63 — the top
bit of the 64-bit trace — and every higher bit of each per-round trace
value is forced to 0 before any counting or merging, while bits 0-62
(bit 0 included) are preserved. -/
theorem claim_C2_amended (cfg : Config)
    (h : cfg.ignore_first_cache_line = true) (t i : Nat) :
    (maskTrace cfg t).testBit i = (t.testBit i && decide (i < 63)) := by
  rw [maskTrace, if_pos h,
      show (9223372036854775807 : Nat) = 2 ^ 63 - 1 by norm_num,
      Nat.testBit_and, Nat.testBit_two_pow_sub_one]

theorem claim_C2_amended_witness :
    ((⟨1, 0, true⟩ : Config).ignore_first_cache_line = true)
    ∧ (maskTrace ⟨1, 0, true⟩ (2 ^ 63)).testBit 63
        = ((2 ^ 63 : Nat).testBit 63 && decide (63 < 63)) :=
  ⟨rfl, claim_C2_amended ⟨1, 0, true⟩ rfl (2 ^ 63) 63⟩

/-- C3 counterexample: a round-count argument of 0 is a sentinel replaced
by the configured `num_measurements` (lines 81-82), not an empty-batch
case: with a non-empty input list the engine still writes the input count
and payload to the device and returns one (zero) trace per input — neither
the returned sequence nor the device-call log is empty. -/
theorem claim_C3_counterexample :
    trace_test_case ⟨0, 0, false⟩ false
        ⟨true, true, fun _ => .rows [⟨5, 0, 0, 0⟩]⟩ [[0]] 0
      = ([.writeNInputs 1, .writeInputs [0], .readNInputs], .ok ([0], none))
    ∧ ([DevCall.writeNInputs 1, .writeInputs [0], .readNInputs] : List DevCall)
        ≠ []
    ∧ ([(0 : Nat)] : List Nat) ≠ [] :=
  ⟨rfl, by decide, by decide⟩

/-- C3 amended: an empty input list returns an empty sequence with zero
device calls, but a round count of 0 with a non-empty input list is a
sentinel for the configured default `num_measurements` and behaves exactly
as if that default had been passed (device calls included). -/
theorem claim_C3_amended (cfg : Config) (cov : Bool) (dev : Device)
    (inputs : List Input) (nm : Nat) :
    (inputs = [] → trace_test_case cfg cov dev inputs nm = ([], .ok ([], none)))
    ∧ trace_test_case cfg cov dev inputs 0
        = trace_test_case cfg cov dev inputs cfg.num_measurements := by
  constructor
  · intro h
    rw [trace_test_case, if_pos h]
  · have hnm : resolveNm cfg 0 = resolveNm cfg cfg.num_measurements := by
      unfold resolveNm
      by_cases hc : cfg.num_measurements = 0
      · simp [hc]
      · simp [hc]
    unfold trace_test_case
    rw [hnm]

theorem claim_C3_amended_witness :
    trace_test_case ⟨2, 1, false⟩ false ⟨true, true, fun _ => .rows []⟩ [] 3
      = ([], .ok ([], none))
    ∧ trace_test_case ⟨2, 1, false⟩ false ⟨true, true, fun _ => .rows []⟩ [] 0
        = trace_test_case ⟨2, 1, false⟩ false ⟨true, true, fun _ => .rows []⟩ []
            ((⟨2, 1, false⟩ : Config).num_measurements) :=
  ⟨(claim_C3_amended ⟨2, 1, false⟩ false ⟨true, true, fun _ => .rows []⟩ [] 3).1
     rfl,
   (claim_C3_amended ⟨2, 1, false⟩ false ⟨true, true, fun _ => .rows []⟩ [] 0).2⟩

/-- C4 counterexample: a round returning fewer rows (one) than submitted
inputs (two) is not reported as any error: the batch completes and returns
a partial result — input 1 received no reading in any round and gets the
zero default — contradicting that a row/input count mismatch is reported as
a DeviceError rather than producing misaligned or partial results. -/
theorem claim_C4_counterexample :
    (trace_test_case ⟨2, 0, false⟩ false
        ⟨true, true, fun _ => .rows [⟨5, 0, 0, 0⟩]⟩ [[0], [0]] 2).2
      = .ok ([5, 0], none) :=
  rfl

/-- C4 amended: the round parser appends the i-th row's reading to the i-th
input's history in batch order; when the device returns more rows than
inputs, the batch aborts with an unhandled index error (not a dedicated
ShapeMismatch DeviceError), and when it returns fewer rows, the trailing
inputs silently receive no reading for that round and no error is
raised. -/
theorem claim_C4_amended (cfg : Config) (st : List (List Nat) × List PfcTriple)
    (rs : List RawRow) :
    (st.1.length < rs.length → appendRound cfg st rs = .error .indexError)
    ∧ (rs.length ≤ st.1.length →
        ∃ tr' pf', appendRound cfg st rs = .ok (tr', pf')
          ∧ (∀ (i : Nat) (r : RawRow) (t : List Nat),
               rs[i]? = some r → st.1[i]? = some t →
               tr'[i]? = some (t ++ [maskTrace cfg r.cache_map]))
          ∧ (∀ i : Nat, rs.length ≤ i → tr'[i]? = st.1[i]?)) := by
  constructor
  · intro h
    rw [appendRound, if_pos h]
  · intro h
    refine ⟨appendTraces st.1 (rs.map fun r => maskTrace cfg r.cache_map),
            appendPfc st.2 rs, by rw [appendRound, if_neg (by omega)], ?_, ?_⟩
    · intro i r t hr ht
      refine appendTraces_getElem_lt st.1 _ i (maskTrace cfg r.cache_map) t
        ?_ ht
      rw [List.getElem?_map, hr]
      rfl
    · intro i hi
      exact appendTraces_getElem_ge st.1 _ i (by simpa using hi)

theorem claim_C4_amended_witness :
    appendRound ⟨1, 0, false⟩ ([[]], [⟨[], [], []⟩]) [⟨1, 2, 3, 4⟩, ⟨5, 6, 7, 8⟩]
      = .error .indexError :=
  (claim_C4_amended ⟨1, 0, false⟩ ([[]], [⟨[], [], []⟩])
    [⟨1, 2, 3, 4⟩, ⟨5, 6, 7, 8⟩]).1 (by decide)

/-- C5: a non-empty batch whose resolved round count is 1 performs exactly
one round and returns each input's single parsed per-round trace with no
outlier filtering, forwarding that round's raw counter triples — not
filtered ones — to the coverage hook (when a coverage object is set). -/
theorem claim_C5 (cfg : Config) (cov : Bool) (dev : Device)
    (inputs : List Input) (nm : Nat) (rs : List RawRow)
    (hne : inputs ≠ []) (hready : dev.ready = true) (hload : dev.loadOk = true)
    (hnm : resolveNm cfg nm = 1) (hr : dev.round 0 = .rows rs)
    (hlen : rs.length = inputs.length) :
    trace_test_case cfg cov dev inputs nm
      = ([.writeNInputs inputs.length, .writeInputs inputs.flatten,
          .readNInputs, .measure],
         .ok (rs.map fun r => maskTrace cfg r.cache_map,
              if cov then some (rs.map fun r => [r.pfc1, r.pfc2, r.pfc3])
              else none)) := by
  rw [trace_test_case_run cfg cov dev inputs nm hne hready hload, hnm]
  have hok : appendRound cfg (initHistories inputs) rs
      = .ok ((rs.map fun r => maskTrace cfg r.cache_map).map fun v => [v],
             rs.map fun r => ⟨[r.pfc1], [r.pfc2], [r.pfc3]⟩) := by
    rw [appendRound,
        if_neg (by simp [initHistories, hlen]),
        show (initHistories inputs).1 = inputs.map fun _ => [] from rfl,
        show (initHistories inputs).2 = inputs.map fun _ => ⟨[], [], []⟩
          from rfl,
        appendTraces_nils inputs _ (by simpa using hlen),
        appendPfc_nils inputs rs hlen]
  have hrun : runRoundsAux cfg dev (initHistories inputs) 0 1
      = ([.measure],
         .ok ((rs.map fun r => maskTrace cfg r.cache_map).map fun v => [v],
              rs.map fun r => ⟨[r.pfc1], [r.pfc2], [r.pfc3]⟩)) := by
    simp only [runRoundsAux, hr, hok]
  rw [hrun]
  have hsr : singleRoundResult cov
      ((rs.map fun r => maskTrace cfg r.cache_map).map fun v => [v])
      (rs.map fun r => ⟨[r.pfc1], [r.pfc2], [r.pfc3]⟩)
      = .ok (rs.map fun r => maskTrace cfg r.cache_map,
             if cov then some (rs.map fun r => [r.pfc1, r.pfc2, r.pfc3])
             else none) := by
    cases cov with
    | false =>
      unfold singleRoundResult
      simp only [Bool.false_eq_true, if_false]
      rw [traceHeads_singletons]
    | true =>
      unfold singleRoundResult
      simp only [if_true]
      rw [pfcHeads_singles]
      simp only [Except.map]
      rw [traceHeads_singletons]
  show ([DevCall.writeNInputs inputs.length, .writeInputs inputs.flatten,
         .readNInputs] ++ [.measure],
        singleRoundResult cov
          ((rs.map fun r => maskTrace cfg r.cache_map).map fun v => [v])
          (rs.map fun r => ⟨[r.pfc1], [r.pfc2], [r.pfc3]⟩)) = _
  rw [hsr]
  rfl

theorem claim_C5_witness :
    trace_test_case ⟨1, 0, false⟩ true
        ⟨true, true, fun _ => .rows [⟨5, 6, 7, 8⟩]⟩ [[0]] 1
      = ([.writeNInputs 1, .writeInputs [0], .readNInputs, .measure],
         .ok ([5], some [[6, 7, 8]])) :=
  claim_C5 ⟨1, 0, false⟩ true ⟨true, true, fun _ => .rows [⟨5, 6, 7, 8⟩]⟩
    [[0]] 1 [⟨5, 6, 7, 8⟩] (by decide) rfl rfl rfl rfl rfl

/-- C6: the counter filter of the multi-round path applies the
occurrence-counting scheme only to the first counter slot, with doubled
threshold `max_outliers * 2` and maximum as merge operator — the filtered
triple of input i is `[filterPfc mo p1, 0, 0]`, so the second and third
slots keep the zero default — and `filterPfc` is the max-fold of the values
recorded once each at their `2 * max_outliers + 1`-st occurrence. -/
theorem claim_C6 (mo : Nat) (pfc : List PfcTriple) (i : Nat) (p : PfcTriple)
    (rs : List Nat) (hget : pfc[i]? = some p) :
    (filterPhase mo pfc)[i]? = some [filterPfc mo p.p1, 0, 0]
    ∧ filterPfc mo rs = (events (mo * 2) rs).foldl (fun a b => max a b) 0
    ∧ (∀ v, (events (mo * 2) rs).count v
        = if mo * 2 < rs.count v then 1 else 0) := by
  refine ⟨?_, filterPfc_eq_foldl_events mo rs, events_count (mo * 2) rs⟩
  rw [filterPhase, List.getElem?_map, hget]
  rfl

theorem claim_C6_witness :
    (filterPhase 1 [⟨[4, 4, 4], [9], [9]⟩])[0]?
        = some [filterPfc 1 [4, 4, 4], 0, 0]
    ∧ filterPfc 1 [4, 4, 4]
        = (events 2 [4, 4, 4]).foldl (fun a b => max a b) 0 :=
  ⟨(claim_C6 1 [⟨[4, 4, 4], [9], [9]⟩] 0 ⟨[4, 4, 4], [9], [9]⟩ [4, 4, 4]
      rfl).1,
   (claim_C6 1 [⟨[4, 4, 4], [9], [9]⟩] 0 ⟨[4, 4, 4], [9], [9]⟩ [4, 4, 4]
      rfl).2.1⟩

/-- C7: if some round of the batch lacks the trace column — all earlier
rounds having parsed without overflow — the whole batch aborts with the
NoOutput error, and no per-input trace values are returned for any input of
the batch. -/
theorem claim_C7 (cfg : Config) (cov : Bool) (dev : Device)
    (inputs : List Input) (nm k : Nat)
    (hne : inputs ≠ []) (hready : dev.ready = true) (hload : dev.loadOk = true)
    (hk : k < resolveNm cfg nm) (hbad : dev.round k = .noTraceColumn)
    (hgood : ∀ j < k, ∃ rs, dev.round j = .rows rs
      ∧ rs.length ≤ inputs.length) :
    (trace_test_case cfg cov dev inputs nm).2 = .error .noOutput := by
  rw [trace_test_case_run cfg cov dev inputs nm hne hready hload]
  have hrun : (runRoundsAux cfg dev (initHistories inputs) 0
      (resolveNm cfg nm)).2 = .error .noOutput := by
    refine runRoundsAux_noOutput cfg dev k (initHistories inputs) 0
      (resolveNm cfg nm) hk (by simpa using hbad) ?_
    intro j hj
    obtain ⟨rs, hrs, hlen⟩ := hgood j hj
    exact ⟨rs, by simpa using hrs, by simpa [initHistories] using hlen⟩
  rcases hrr : runRoundsAux cfg dev (initHistories inputs) 0 (resolveNm cfg nm)
    with ⟨mlog, res⟩
  rw [hrr] at hrun
  have hres : res = .error .noOutput := hrun
  rw [hres]

theorem claim_C7_witness :
    (trace_test_case ⟨0, 0, false⟩ false
        ⟨true, true,
         fun k => if k = 0 then .rows [⟨5, 0, 0, 0⟩] else .noTraceColumn⟩
        [[0]] 3).2 = .error .noOutput := by
  refine claim_C7 ⟨0, 0, false⟩ false
    ⟨true, true,
     fun k => if k = 0 then .rows [⟨5, 0, 0, 0⟩] else .noTraceColumn⟩
    [[0]] 3 1 (by decide) rfl rfl (by decide) rfl ?_
  intro j hj
  have hj0 : j = 0 := by omega
  subst hj0
  exact ⟨[⟨5, 0, 0, 0⟩], rfl, by decide⟩

/-- C8: an input of a multi-round batch whose every distinct trace value
occurs at most `max_outliers` times across the rounds gets CombinedTrace 0
out of the merge phase — the zero default, never an error. -/
theorem claim_C8 (mo : Nat) (traces : List (List Nat)) (i : Nat)
    (hist : List Nat) (hget : traces[i]? = some hist)
    (hnoise : ∀ v ∈ hist, hist.count v ≤ mo) :
    (mergePhase mo traces)[i]? = some 0 := by
  rw [mergePhase, List.getElem?_map, hget]
  show some (mergeTraces mo hist) = some 0
  rw [mergeTraces_all_noise mo hist hnoise]

theorem claim_C8_witness : (mergePhase 2 [[1, 2, 1]])[0]? = some 0 :=
  claim_C8 2 [[1, 2, 1]] 0 [1, 2, 1] rfl (by decide)

/-- C9: a non-empty batch that completes without error returns exactly one
trace per input, and the coverage argument — when the hook fires — holds
exactly one filtered triple per input, in batch order; moreover any
successful run of the measurement loop leaves the per-input trace and
counter histories index-aligned 1:1 with the input batch, each history of
length at most the resolved round count. -/
theorem claim_C9 (cfg : Config) (cov : Bool) (dev : Device)
    (inputs : List Input) (nm : Nat) (log : List DevCall) (ret : List Nat)
    (hook : Option (List (List Nat)))
    (hne : inputs ≠ [])
    (h : trace_test_case cfg cov dev inputs nm = (log, .ok (ret, hook))) :
    ret.length = inputs.length
    ∧ (∀ fc, hook = some fc → fc.length = inputs.length)
    ∧ (∀ (mlog : List DevCall) (tr : List (List Nat)) (pf : List PfcTriple),
        runRoundsAux cfg dev (initHistories inputs) 0 (resolveNm cfg nm)
          = (mlog, .ok (tr, pf)) →
        tr.length = inputs.length ∧ pf.length = inputs.length
        ∧ (∀ x ∈ tr, x.length ≤ resolveNm cfg nm)
        ∧ (∀ x ∈ pf, x.p1.length ≤ resolveNm cfg nm
            ∧ x.p2.length ≤ resolveNm cfg nm
            ∧ x.p3.length ≤ resolveNm cfg nm)) := by
  have hthird : ∀ (mlog : List DevCall) (tr : List (List Nat))
      (pf : List PfcTriple),
      runRoundsAux cfg dev (initHistories inputs) 0 (resolveNm cfg nm)
        = (mlog, .ok (tr, pf)) →
      tr.length = inputs.length ∧ pf.length = inputs.length
      ∧ (∀ x ∈ tr, x.length ≤ resolveNm cfg nm)
      ∧ (∀ x ∈ pf, x.p1.length ≤ resolveNm cfg nm
          ∧ x.p2.length ≤ resolveNm cfg nm
          ∧ x.p3.length ≤ resolveNm cfg nm) := by
    intro mlog tr pf hrr
    obtain ⟨h1, h2, h3, h4⟩ := runRoundsAux_ok cfg dev (resolveNm cfg nm)
      (initHistories inputs) 0 mlog tr pf (by simp [initHistories]) hrr
    refine ⟨by simpa [initHistories] using h1,
            by simpa [initHistories] using h2, ?_, ?_⟩
    · intro x hx
      obtain ⟨y, hy, hxy⟩ := h3 x hx
      have hy0 : y = [] := by
        simp only [initHistories, List.mem_map] at hy
        obtain ⟨a, -, ha⟩ := hy
        exact ha.symm
      rw [hy0] at hxy
      simpa using hxy
    · intro x hx
      obtain ⟨y, hy, hxy1, hxy2, hxy3⟩ := h4 x hx
      have hy0 : y = ⟨[], [], []⟩ := by
        simp only [initHistories, List.mem_map] at hy
        obtain ⟨a, -, ha⟩ := hy
        exact ha.symm
      rw [hy0] at hxy1 hxy2 hxy3
      exact ⟨by simpa using hxy1, by simpa using hxy2, by simpa using hxy3⟩
  have hready : dev.ready = true := by
    cases hdr : dev.ready with
    | true => rfl
    | false =>
      rw [trace_test_case, if_neg hne, if_pos hdr] at h
      exact absurd (congrArg Prod.snd h) (by simp)
  have hload : dev.loadOk = true := by
    cases hdl : dev.loadOk with
    | true => rfl
    | false =>
      simp only [trace_test_case, if_neg hne, hready, hdl] at h
      exact absurd (congrArg Prod.snd h) (by simp)
  have hAB : ret.length = inputs.length
      ∧ (∀ fc, hook = some fc → fc.length = inputs.length) := by
    rw [trace_test_case_run cfg cov dev inputs nm hne hready hload] at h
    cases hrr : runRoundsAux cfg dev (initHistories inputs) 0
        (resolveNm cfg nm) with
    | mk mlog res =>
      rw [hrr] at h
      cases res with
      | error e =>
        exact absurd
          (show (Except.error e
              : Except ExecError (List Nat × Option (List (List Nat))))
            = .ok (ret, hook) from congrArg Prod.snd h) (by simp)
      | ok p =>
        rcases p with ⟨tr, pf⟩
        obtain ⟨htr, hpf, -, -⟩ := hthird mlog tr pf hrr
        have hsnd : (if resolveNm cfg nm = 1
            then singleRoundResult cov tr pf
            else .ok (mergePhase cfg.max_outliers tr,
                      if cov then some (filterPhase cfg.max_outliers pf)
                      else none))
            = .ok (ret, hook) := congrArg Prod.snd h
        by_cases hnm1 : resolveNm cfg nm = 1
        · rw [if_pos hnm1] at hsnd
          obtain ⟨hrl, hhl⟩ := singleRoundResult_ok cov tr pf ret hook hsnd
          exact ⟨hrl.trans htr, fun fc hfc => (hhl fc hfc).trans hpf⟩
        · rw [if_neg hnm1] at hsnd
          injection hsnd with hp
          have hret : mergePhase cfg.max_outliers tr = ret :=
            congrArg Prod.fst hp
          have hhook : (if cov then some (filterPhase cfg.max_outliers pf)
              else none) = hook := congrArg Prod.snd hp
          constructor
          · rw [← hret]
            simpa [mergePhase] using htr
          · intro fc hfc
            rw [← hhook] at hfc
            cases cov with
            | false => cases hfc
            | true =>
              rw [if_pos rfl] at hfc
              injection hfc with hfc
              rw [← hfc]
              simpa [filterPhase] using hpf
  exact ⟨hAB.1, hAB.2, hthird⟩

theorem claim_C9_witness :
    trace_test_case ⟨0, 1, false⟩ true
        ⟨true, true, fun _ => .rows [⟨3, 4, 5, 6⟩, ⟨7, 8, 9, 10⟩]⟩
        [[0], [1]] 3
      = ([.writeNInputs 2, .writeInputs [0, 1], .readNInputs,
          .measure, .measure, .measure],
         .ok ([3, 7], some [[4, 0, 0], [8, 0, 0]]))
    ∧ ([3, 7] : List Nat).length = ([[0], [1]] : List Input).length
    ∧ (∀ fc, (some [[4, 0, 0], [8, 0, 0]]
          : Option (List (List Nat))) = some fc →
        fc.length = ([[0], [1]] : List Input).length) := by
  have hrun : trace_test_case ⟨0, 1, false⟩ true
      ⟨true, true, fun _ => .rows [⟨3, 4, 5, 6⟩, ⟨7, 8, 9, 10⟩]⟩
      [[0], [1]] 3
      = ([.writeNInputs 2, .writeInputs [0, 1], .readNInputs,
          .measure, .measure, .measure],
         .ok ([3, 7], some [[4, 0, 0], [8, 0, 0]])) := rfl
  have h := claim_C9 ⟨0, 1, false⟩ true
    ⟨true, true, fun _ => .rows [⟨3, 4, 5, 6⟩, ⟨7, 8, 9, 10⟩]⟩
    [[0], [1]] 3 _ _ _ (by decide) hrun
  exact ⟨hrun, h.1, h.2.1⟩

/-- C10: the merged CombinedTrace of an input depends only on the multiset
of trace values in its history — any permutation of the rounds yields the
same value — and equals the bitwise OR of exactly those distinct values
whose total occurrence count exceeds max_outliers. -/
theorem claim_C10 (mo : Nat) (ts ts' : List Nat) (h : ts.Perm ts') :
    mergeTraces mo ts = mergeTraces mo ts'
    ∧ mergeTraces mo ts
        = (ts.dedup.filter fun v => mo < ts.count v).foldl
            (fun a b => a ||| b) 0 := by
  constructor
  · rw [mergeTraces_eq_foldl_events, mergeTraces_eq_foldl_events]
    refine foldl_lor_perm ?_ 0
    rw [List.perm_iff_count]
    intro a
    rw [events_count, events_count, h.count_eq a]
  · rw [mergeTraces_eq_foldl_events]
    exact foldl_lor_perm (events_perm_dedup_filter mo ts) 0

theorem claim_C10_witness :
    mergeTraces 1 [1, 2, 2] = mergeTraces 1 [2, 1, 2]
    ∧ mergeTraces 1 [1, 2, 2]
        = ([1, 2, 2].dedup.filter fun v => 1 < [1, 2, 2].count v).foldl
            (fun a b => a ||| b) 0 :=
  claim_C10 1 [1, 2, 2] [2, 1, 2] (by decide)

end Executor
